import Mathlib

/-!
Verification of the namespace and type resolution engine of the
ostensibly-typed repository (a JSDoc-to-TypeScript declaration generator).

The definitions below are a shallow embedding of the JavaScript source:

  - JavaScript Map objects (insertion ordered, set replaces in place) are
    modelled as association lists, with alSet / alGet / alHas mirroring
    Map.prototype.set / get / has;
  - the namespace tree entries stored by src/lib/parse.js and src/index.js
    are modelled by the nested inductive NsEntry;
  - findNamespaces (src/lib/parse.js lines 12-24) is modelled by the
    findNsGet / findNsSet workers plus the findNamespaces /
    findNamespacesTag wrappers for its string-argument and node-argument
    calling modes;
  - resolveActualType (src/lib/parse.js lines 102-127) is modelled over an
    inductive TNode syntax with the TypeScript checker abstracted as an
    oracle (structure Checker);
  - filterMembers (src/lib/filter.js lines 37-42), the extends half of
    generateClassHeritageClauses (src/lib/generate.js lines 292-299) and
    generateEnumType (src/lib/generate.js lines 220-228) are modelled over
    small record types holding exactly the node data those functions read.
-/

namespace OstensiblyTyped

/-- JavaScript Map.prototype.set on an insertion-ordered association list:
an existing key keeps its position and receives the new value, a fresh key is
appended at the end. -/
def alSet {κ α : Type} [DecidableEq κ] (k : κ) (v : α) : List (κ × α) → List (κ × α)
  | [] => [(k, v)]
  | (k2, v2) :: rest => if k2 = k then (k, v) :: rest else (k2, v2) :: alSet k v rest

/-- JavaScript Map.prototype.get (undefined becomes none). -/
def alGet {κ α : Type} [DecidableEq κ] (k : κ) : List (κ × α) → Option α
  | [] => none
  | (k2, v2) :: rest => if k2 = k then some v2 else alGet k rest

/-- JavaScript Map.prototype.has. -/
def alHas {κ α : Type} [DecidableEq κ] (k : κ) (l : List (κ × α)) : Bool :=
  (alGet k l).isSome

/-- JavaScript String.prototype.split with the single-character dot
separator, on the underlying character list (an empty input yields one
empty segment, a trailing dot yields a trailing empty segment, exactly as
in JavaScript). -/
def splitDotsChars : List Char → List (List Char)
  | [] => [[]]
  | ch :: rest =>
      let r := splitDotsChars rest
      if ch = '.' then [] :: r
      else match r with
        | [] => [[ch]]
        | g :: gs => (ch :: g) :: gs

/-- JavaScript name.split(".") on strings. -/
def splitDots (s : String) : List String :=
  (splitDotsChars s.data).map (fun cs => String.mk cs)

/-- JavaScript String.prototype.toLowerCase restricted to the ASCII tag
names this program compares. -/
def lowerString (s : String) : String :=
  String.mk (s.data.map Char.toLower)

/-- An entry of the namespace tree: the plain objects stored in the
namespaces map by src/index.js and src/lib/parse.js. The JavaScript objects
carry an optional kind string (their "type" field, "namespace" or "alias"),
an optional anchoring syntax node and an optional source node (both stood
for here by numeric ids), and a members map (absent fields are none). -/
inductive NsEntry : Type where
  | mk (kind : Option String) (nodeId : Option Nat) (sourceId : Option Nat)
      (members : List (String × NsEntry)) : NsEntry

/-- The namespace tree: a JavaScript Map from segment name to entry. -/
abbrev NsTree : Type := List (String × NsEntry)

/-- Kind ("type") field of an entry. -/
def NsEntry.kind : NsEntry → Option String
  | .mk k _ _ _ => k

/-- Anchor node id of an entry. -/
def NsEntry.nodeId : NsEntry → Option Nat
  | .mk _ n _ _ => n

/-- Source node id of an entry. -/
def NsEntry.sourceId : NsEntry → Option Nat
  | .mk _ _ s _ => s

/-- Members map of an entry. -/
def NsEntry.members : NsEntry → NsTree
  | .mk _ _ _ m => m

/-- Replace the members map of an entry, keeping the other fields. -/
def NsEntry.withMembers : NsEntry → NsTree → NsEntry
  | .mk k n s _, m => .mk k n s m

/-- The bare intermediate entry created by findNamespaces when a path
segment is missing: the JavaScript object literal with only a members field. -/
def emptyEntry : NsEntry := .mk none none none []

/-- The info object passed to the whenFound callback of findNamespaces:
the JavaScript object literal with the resolved name, the matched tag name
(its "type" field) and the anchoring node. -/
structure TagInfo : Type where
  name : String
  tagType : Option String
  nodeId : Nat

/-- The traversal loop of findNamespaces (src/lib/parse.js lines 17-23) in
its string-argument mode: every missing segment entry is created as
emptyEntry, descent follows the members maps, and at the last segment the
existing or freshly created entry is returned unchanged (whenFound is not
applied when the first argument was a string). -/
def findNsGet : List String → NsTree → NsTree × Option NsEntry
  | [], t => (t, none)
  | [part], t =>
      let t1 := if alHas part t then t else alSet part emptyEntry t
      (t1, alGet part t1)
  | part :: p2 :: rest, t =>
      let t1 := if alHas part t then t else alSet part emptyEntry t
      match alGet part t1 with
      | some e =>
          let r := findNsGet (p2 :: rest) e.members
          (alSet part (e.withMembers r.fst) t1, r.snd)
      | none => (t1, none)

/-- The traversal loop of findNamespaces in its node-argument mode: as in
findNsGet, but at the last segment the entry is replaced by
whenFound(info, existing) and the replacement is returned. -/
def findNsSet (info : TagInfo) (whenFound : TagInfo → NsEntry → NsEntry) :
    List String → NsTree → NsTree × Option NsEntry
  | [], t => (t, none)
  | [part], t =>
      let t1 := if alHas part t then t else alSet part emptyEntry t
      match alGet part t1 with
      | some e =>
          let t2 := alSet part (whenFound info e) t1
          (t2, alGet part t2)
      | none => (t1, none)
  | part :: p2 :: rest, t =>
      let t1 := if alHas part t then t else alSet part emptyEntry t
      match alGet part t1 with
      | some e =>
          let r := findNsSet info whenFound (p2 :: rest) e.members
          (alSet part (e.withMembers r.fst) t1, r.snd)
      | none => (t1, none)

/-- findNamespaces (src/lib/parse.js lines 12-24) called with a string
name: the while loop runs only when the name is truthy, so an empty name
returns undefined and leaves the tree untouched; otherwise the name is
split on dots and traversed in read mode. -/
def findNamespaces (name : String) (t : NsTree) : NsTree × Option NsEntry :=
  if name = "" then (t, none) else findNsGet (splitDots name) t

/-- findNamespaces called with a syntax node: the namespace name is the
comment of the first JSDoc tag accepted by the tag test, modelled here as
the already extracted option string, together with the matched tag name and
the node id that make up the info object. A node with no matching tag has
no comment (none), and an empty comment is falsy: in both cases the loop
never runs. Otherwise the path is traversed in write mode. -/
def findNamespacesTag (comment? : Option String) (tagType : Option String)
    (nodeId : Nat) (whenFound : TagInfo → NsEntry → NsEntry) (t : NsTree) :
    NsTree × Option NsEntry :=
  match comment? with
  | none => (t, none)
  | some name =>
      if name = "" then (t, none)
      else findNsSet ⟨name, tagType, nodeId⟩ whenFound (splitDots name) t

/-- The entry stored at a dotted path in the tree (pure lookup, used only
to state theorems; not part of the source). -/
def entryAt : List String → NsTree → Option NsEntry
  | [], _ => none
  | [part], t => alGet part t
  | part :: p2 :: rest, t =>
      match alGet part t with
      | some e => entryAt (p2 :: rest) e.members
      | none => none

/-- The whenFound callback the class-declaration visitor passes to
findNamespaces in src/index.js line 57. In JavaScript it spreads the
existing entry over the fresh fields, so a field the existing entry
already has keeps its old value, and the source field is always set to the
newly visited node. -/
def classVisitorFound (i : TagInfo) (e : NsEntry) : NsEntry :=
  .mk (match e.kind with | some k => some k | none => i.tagType)
      (match e.nodeId with | some n => some n | none => some i.nodeId)
      (some i.nodeId)
      e.members

/-- Lines 60-62 of src/index.js, inside the class-declaration visitor: a
class whose name equals the configured defaultExport is registered under
the defaultExport key as an alias with an empty member map, but only when
no entry with that key exists at that moment. -/
def registerDefaultExport (className defaultExport : String) (nodeId : Nat)
    (t : NsTree) : NsTree :=
  if className = defaultExport && !(alHas defaultExport t) then
    alSet defaultExport (NsEntry.mk (some "alias") (some nodeId) none []) t
  else t

/-- Replace the members map of the entry at a dotted path (the functional
image of mutating the aliased members map target in place). -/
def setMembersAt : List String → NsTree → NsTree → NsTree
  | [], _, t => t
  | [part], m, t =>
      match alGet part t with
      | some e => alSet part (e.withMembers m) t
      | none => t
  | part :: p2 :: rest, m, t =>
      match alGet part t with
      | some e => alSet part (e.withMembers (setMembersAt (p2 :: rest) m e.members)) t
      | none => t

/-- The synthetic-callback branch of resolveImplicitTypeDefs
(src/lib/parse.js lines 73-90) for one documentation block: the owning
class namespace is looked up with findNamespaces in node mode with the
default whenFound (which re-stores the entry unchanged), and the synthetic
function-type tag entry is stored in that namespace member map under the
method name only when the eligibility test (isStatic || hasTypeParams,
collapsed here into the eligible flag) holds and no entry with that name
exists yet. The surrounding hasTemplates / abstract / not-private guards
only decide whether this branch runs at all. -/
def resolveImplicitTypeDefs (parentComment? : Option String)
    (parentTagType : Option String) (parentId : Nat) (methodName : String)
    (eligible : Bool) (synth : NsEntry) (ns : NsTree) : NsTree :=
  let r := findNamespacesTag parentComment? parentTagType parentId (fun _ e => e) ns
  match r.snd with
  | none => r.fst
  | some e =>
      if eligible && !(alHas methodName e.members) then
        setMembersAt (splitDots (parentComment?.getD ""))
          (alSet methodName synth e.members) r.fst
      else r.fst

/-- Declared type nodes as consumed by resolveActualType
(src/lib/parse.js lines 102-127). The constructors follow the kinds the
switch statement dispatches on: type queries and type references are passed
through, unions and arrays are resolved member-wise, and every other kind
lands in the default branch, which may read the node's typeExpression or
type child. voidK is the void keyword type node produced for an absent
node. -/
inductive TNode : Type where
  | typeQuery (id : Nat)
  | typeRef (name : String) (args : List TNode)
  | unionT (types : List TNode)
  | arrayT (elem : TNode)
  | voidK
  | other (id : Nat) (typeExpr : Option TNode) (typeField : Option TNode)

/-- The TypeScript checker abstracted as an oracle: intrinsicOf gives the
intrinsicName of checker.getTypeFromTypeNode(node) (none when the type has
no intrinsic name), and toNode is checker.typeToTypeNode of that type. -/
structure Checker : Type where
  intrinsicOf : TNode → Option String
  toNode : TNode → TNode

/-- JavaScript a ?? b on option values. -/
def firstSome (a b : Option TNode) : Option TNode :=
  match a with
  | some x => some x
  | none => b

/-- The body of resolveActualType for a present node with isAsync false:
type queries and type references return the node verbatim, unions and
arrays resolve their members recursively, and the default branch returns
the checker's guessed type node unless its intrinsic name is the error
sentinel, in which case it falls back to resolving the node's own
typeExpression ?? type child (an absent child resolves to void). -/
def resolveActualTypeNode (c : Checker) : TNode → TNode
  | .typeQuery i => .typeQuery i
  | .typeRef nm args => .typeRef nm args
  | .unionT ts => .unionT (ts.attach.map (fun m => resolveActualTypeNode c m.val))
  | .arrayT e => .arrayT (resolveActualTypeNode c e)
  | .voidK => if c.intrinsicOf .voidK = some "error" then .voidK else c.toNode .voidK
  | .other i te ty =>
      if c.intrinsicOf (.other i te ty) = some "error" then
        match te, ty with
        | some m, _ => resolveActualTypeNode c m
        | none, some m => resolveActualTypeNode c m
        | none, none => .voidK
      else c.toNode (.other i te ty)
termination_by t => sizeOf t
decreasing_by
  all_goals simp_wf
  all_goals try omega
  all_goals (have h := List.sizeOf_lt_of_mem m.property; omega)

/-- resolveActualType (src/lib/parse.js lines 102-127): with isAsync true
the result is a Promise type reference around the resolution of the same
node without the flag; with isAsync false a present node is resolved by
resolveActualTypeNode and an absent node becomes the void keyword type. -/
def resolveActualType (c : Checker) : Option TNode → Bool → TNode
  | n?, true => .typeRef "Promise" [resolveActualType c n? false]
  | some n, false => resolveActualTypeNode c n
  | none, false => .voidK
termination_by n? b => (sizeOf n?, if b then 1 else 0)

/-- Name of a class member, as read by filterMembers: its escaped text and
whether it is a private (hash) identifier. -/
structure MName : Type where
  text : String
  isPriv : Bool
deriving DecidableEq

/-- The fields of a class member node that filterMembers
(src/lib/filter.js lines 37-42) reads: the optional name, the optional
escaped text of the member's initializer, whether a JSDoc type tag is
attached, whether a private modifier is present, and the names of all
JSDoc tags attached to the member. -/
structure MemberNode : Type where
  mname : Option MName
  initName : Option String
  hasTypeTag : Bool
  hasPrivateModifier : Bool
  tags : List String
deriving DecidableEq

/-- The tag predicate for internal tags (getTagNameComparisonMethod
"internal" from src/lib/filter.js), applied to a tag name. -/
def isJSDocInternalTag (tagName : String) : Bool :=
  ["internal"].contains (lowerString tagName)

/-- The tag predicate for inheritdoc tags (getTagNameComparisonMethod
"inheritdoc" from src/lib/filter.js), applied to a tag name. -/
def isJSDocInheritDocTag (tagName : String) : Bool :=
  ["inheritdoc"].contains (lowerString tagName)

/-- filterMembers (src/lib/filter.js lines 37-42): keeps a member when it
has no name, or its name is not a private identifier and the kind-specific
test passes (for namespaces: the name differs from the initializer's name
or a type tag is present; otherwise: no private modifier), and in all
cases no internal or inheritdoc tag is attached. -/
def filterMembers (kind : String) (members : List MemberNode) : List MemberNode :=
  members.filter fun m =>
    (match m.mname with
     | none => true
     | some nm =>
         !nm.isPriv &&
           (if kind = "namespace"
            then (some nm.text != m.initName) || m.hasTypeTag
            else !m.hasPrivateModifier))
    && !(m.tags.any fun tg => isJSDocInternalTag tg || isJSDocInheritDocTag tg)

/-- A heritage clause type (an ExpressionWithTypeArguments) as read by
generateClassHeritageClauses: its base name (the identifier's escaped text,
or the property-access name's escaped text, possibly absent) and a node id
distinguishing the node. -/
structure HType : Type where
  baseName : Option String
  hid : Nat
deriving DecidableEq

/-- The extends half of generateClassHeritageClauses (src/lib/generate.js
lines 292-299): explicit extends-clause types are kept when their
constructability XORed with isInterface holds, documented extends-tag
types are appended after them, the combined list is keyed by base name and
poured into a JavaScript Map (so a later entry for the same key overwrites
the earlier value while keeping its position), and the Map's values form
the clause. constructable abstracts isConstructableType over node ids. -/
def generateClassHeritageClauses (constructable : Nat → Bool) (isInterface : Bool)
    (explicitTypes docTypes : List HType) : List HType :=
  ((((explicitTypes.filter fun ht => xor (constructable ht.hid) isInterface) ++ docTypes).map
      (fun ht => (ht.baseName, ht))).foldl
    (fun m kv => alSet kv.fst kv.snd m) []).map Prod.snd

/-- A literal element value read off an enum: a numeric literal or any
other (string) literal, with its text. -/
inductive LitVal : Type where
  | num (text : String)
  | str (text : String)
deriving DecidableEq

/-- The type nodes generateEnumType builds: literal types and union type
nodes. -/
inductive ETy : Type where
  | lit (v : LitVal)
  | unionE (members : List ETy)

/-- The source node an enum tag is attached to: a property assignment
whose initializer has literal elements, or a variable statement whose
declaration list holds one initializer element list per declaration. -/
inductive EnumSource : Type where
  | propAssign (elements : List LitVal)
  | varDecls (decls : List (List LitVal))

/-- generateEnumType (src/lib/generate.js lines 220-228): always a union
type node; its members come from an explicit union-of-literals type
annotation when present (each literal mapped to a literal type node), and
otherwise from the initializer elements of the property assignment or of
each variable declaration, where the flatMap wraps each declaration's
literal list into a nested union only when there is more than one
declaration. -/
def generateEnumType (unionAnn : Option (List LitVal)) (source : EnumSource) : ETy :=
  ETy.unionE
    (match unionAnn with
      | some lits => lits.map ETy.lit
      | none =>
          let decls : List (List LitVal) := match source with
            | .propAssign es => [es]
            | .varDecls ds => ds
          let mapped : List (List ETy) := decls.map (fun es => es.map ETy.lit)
          if mapped.length > 1 then mapped.map ETy.unionE
          else mapped.foldr (fun a b => a ++ b) ([] : List ETy))

/-! Helper lemmas about the association-list model of JavaScript Map. -/

theorem members_withMembers (e : NsEntry) (m : NsTree) :
    (e.withMembers m).members = m := by
  cases e
  rfl

theorem withMembers_self (e : NsEntry) : e.withMembers e.members = e := by
  cases e
  rfl

theorem alGet_alSet_self {κ α : Type} [DecidableEq κ] (k : κ) (v : α)
    (l : List (κ × α)) : alGet k (alSet k v l) = some v := by
  induction l with
  | nil => simp [alSet, alGet]
  | cons p rest ih =>
      obtain ⟨k2, v2⟩ := p
      by_cases h : k2 = k <;> simp [alSet, alGet, h, ih]

theorem alGet_alSet_ne {κ α : Type} [DecidableEq κ] {k2 k : κ} (hne : k ≠ k2)
    (v : α) (l : List (κ × α)) : alGet k2 (alSet k v l) = alGet k2 l := by
  induction l with
  | nil => simp [alSet, alGet, hne]
  | cons p rest ih =>
      obtain ⟨k3, v3⟩ := p
      by_cases h : k3 = k
      · subst h
        simp [alSet, alGet, hne]
      · simp [alSet, alGet, h, ih]

theorem alSet_eq_of_alGet {κ α : Type} [DecidableEq κ] {k : κ} {v : α}
    {l : List (κ × α)} (h : alGet k l = some v) : alSet k v l = l := by
  induction l with
  | nil => simp [alGet] at h
  | cons p rest ih =>
      obtain ⟨k2, v2⟩ := p
      by_cases hk : k2 = k
      · subst hk
        simp [alGet] at h
        simp [alSet, h]
      · simp [alGet, hk] at h
        simp [alSet, hk, ih h]

theorem alHas_eq_isSome {κ α : Type} [DecidableEq κ] (k : κ) (l : List (κ × α)) :
    alHas k l = (alGet k l).isSome := rfl

theorem alGet_ensure {κ α : Type} [DecidableEq κ] (k : κ) (d : α)
    (l : List (κ × α)) :
    alGet k (if alHas k l then l else alSet k d l) = some ((alGet k l).getD d) := by
  by_cases h : alHas k l
  · rw [alHas_eq_isSome] at h
    cases hg : alGet k l with
    | none => rw [hg] at h; simp at h
    | some v => simp [alHas_eq_isSome, hg]
  · rw [alHas_eq_isSome] at h
    cases hg : alGet k l with
    | none => simp [alHas_eq_isSome, hg, alGet_alSet_self]
    | some v => rw [hg] at h; simp at h

theorem withMembers_withMembers (e : NsEntry) (m1 m2 : NsTree) :
    (e.withMembers m1).withMembers m2 = e.withMembers m2 := by
  cases e
  rfl

theorem findNamespacesTag_some (name : String) (hn : name ≠ "")
    (ty : Option String) (n : Nat) (f : TagInfo → NsEntry → NsEntry) (t : NsTree) :
    findNamespacesTag (some name) ty n f t
      = findNsSet ⟨name, ty, n⟩ f (splitDots name) t := by
  simp [findNamespacesTag, hn]

theorem entryAt_findNsSet (i : TagInfo) (f : TagInfo → NsEntry → NsEntry) :
    ∀ (segs : List String) (t : NsTree) (e : NsEntry),
      entryAt segs t = some e →
      entryAt segs (findNsSet i f segs t).fst = some (f i e) := by
  intro segs
  induction segs with
  | nil => intro t e he; simp [entryAt] at he
  | cons part rest ih =>
      intro t e he
      cases rest with
      | nil =>
          have hg : alGet part t = some e := he
          have hh : alHas part t = true := by simp [alHas_eq_isSome, hg]
          simp [findNsSet, entryAt, hh, hg, alGet_alSet_self]
      | cons p2 rest2 =>
          cases hg : alGet part t with
          | none => simp [entryAt, hg] at he
          | some e0 =>
              have he2 : entryAt (p2 :: rest2) e0.members = some e := by
                simpa [entryAt, hg] using he
              have hh : alHas part t = true := by simp [alHas_eq_isSome, hg]
              simp [findNsSet, entryAt, hh, hg, alGet_alSet_self,
                members_withMembers, ih _ _ he2]

theorem findNsSet_id_of_entryAt (i : TagInfo) :
    ∀ (segs : List String) (t : NsTree) (e : NsEntry),
      entryAt segs t = some e →
      findNsSet i (fun _ x => x) segs t = (t, some e) := by
  intro segs
  induction segs with
  | nil => intro t e he; simp [entryAt] at he
  | cons part rest ih =>
      intro t e he
      cases rest with
      | nil =>
          have hg : alGet part t = some e := he
          have hh : alHas part t = true := by simp [alHas_eq_isSome, hg]
          simp [findNsSet, hh, hg, alSet_eq_of_alGet hg]
      | cons p2 rest2 =>
          cases hg : alGet part t with
          | none => simp [entryAt, hg] at he
          | some e0 =>
              have he2 : entryAt (p2 :: rest2) e0.members = some e := by
                simpa [entryAt, hg] using he
              have hh : alHas part t = true := by simp [alHas_eq_isSome, hg]
              simp [findNsSet, hh, hg, ih _ _ he2, withMembers_self,
                alSet_eq_of_alGet hg]

theorem findNsGet_idem (segs : List String) :
    ∀ t : NsTree, findNsGet segs (findNsGet segs t).fst = findNsGet segs t := by
  induction segs with
  | nil => intro t; rfl
  | cons part rest ih =>
      intro t
      cases rest with
      | nil =>
          have h1 := alGet_ensure part emptyEntry t
          have hh : alHas part (if alHas part t then t
              else alSet part emptyEntry t) = true := by
            rw [alHas_eq_isSome, h1]
            rfl
          simp [findNsGet, hh]
      | cons p2 rest2 =>
          have h1 := alGet_ensure part emptyEntry t
          have hh2 : alHas part (if alHas part t then t
              else alSet part emptyEntry t) = true := by
            rw [alHas_eq_isSome, h1]
            rfl
          have hhA : ∀ (v : NsEntry) (l : NsTree), alHas part (alSet part v l) = true := by
            intro v l
            simp [alHas_eq_isSome, alGet_alSet_self]
          simp [findNsGet, hh2, h1, hhA, alGet_alSet_self, members_withMembers,
            withMembers_withMembers, ih, alSet_eq_of_alGet (alGet_alSet_self part _ _)]

/-! Claim C1: the tree builder's write mode overwrites, so the last
registration decides the surviving entry. -/

/-- C1: when findNamespaces is called in write mode on a path whose last
segment already has an entry, the existing entry is replaced by the
whenFound callback's result; consequently, when two registrations claim
the same namespace path, the entry left in the tree is the one produced by
the last registration's callback (last writer wins at the tree-builder
level). -/
theorem findNamespaces_last_writer_wins (t : NsTree) (name : String)
    (hn : name ≠ "") (e : NsEntry)
    (he : entryAt (splitDots name) t = some e)
    (ty1 ty2 : Option String) (n1 n2 : Nat)
    (f1 f2 : TagInfo → NsEntry → NsEntry) :
    entryAt (splitDots name) (findNamespacesTag (some name) ty1 n1 f1 t).fst
      = some (f1 ⟨name, ty1, n1⟩ e) ∧
    entryAt (splitDots name)
        (findNamespacesTag (some name) ty2 n2 f2
          (findNamespacesTag (some name) ty1 n1 f1 t).fst).fst
      = some (f2 ⟨name, ty2, n2⟩ (f1 ⟨name, ty1, n1⟩ e)) := by
  have h1 := findNamespacesTag_some name hn ty1 n1 f1 t
  have key1 : entryAt (splitDots name)
      (findNsSet ⟨name, ty1, n1⟩ f1 (splitDots name) t).fst
        = some (f1 ⟨name, ty1, n1⟩ e) :=
    entryAt_findNsSet _ _ _ _ _ he
  have h2 := findNamespacesTag_some name hn ty2 n2 f2
    (findNsSet ⟨name, ty1, n1⟩ f1 (splitDots name) t).fst
  have key2 := entryAt_findNsSet ⟨name, ty2, n2⟩ f2 (splitDots name) _ _ key1
  constructor
  · rw [h1]
    exact key1
  · rw [h1, h2]
    exact key2

/-- Witness for C1 at concrete inputs: the path A.B already holds an
entry with kind namespace; two registrations through the class-declaration
visitor's callback leave exactly the entry produced by the second
callback application (whose spread keeps the first kind and updates the
source to the last node). -/
theorem findNamespaces_last_writer_wins_witness :
    entryAt (splitDots "A.B")
        (findNamespacesTag (some "A.B") (some "alias") 4 classVisitorFound
          (findNamespacesTag (some "A.B") (some "namespace") 3 classVisitorFound
            [("A", NsEntry.mk none none none
              [("B", NsEntry.mk (some "namespace") (some 2) none [])])]).fst).fst
      = some (classVisitorFound ⟨"A.B", some "alias", 4⟩
          (classVisitorFound ⟨"A.B", some "namespace", 3⟩
            (NsEntry.mk (some "namespace") (some 2) none []))) :=
  (findNamespaces_last_writer_wins
    [("A", NsEntry.mk none none none
      [("B", NsEntry.mk (some "namespace") (some 2) none [])])]
    "A.B" (by decide) (NsEntry.mk (some "namespace") (some 2) none []) rfl
    (some "namespace") (some "alias") 3 4 classVisitorFound classVisitorFound).2

/-! Claim C4: synthetic callback discovery never displaces an existing
member registration. -/

/-- C4: for a generic abstract class method eligible for synthetic
callback discovery, when an entry with the method's name already exists in
the owning class's namespace member map, resolveImplicitTypeDefs registers
nothing: the whole namespace tree is left unchanged (first registration
wins). -/
theorem resolveImplicitTypeDefs_first_registration_wins (ns : NsTree)
    (name : String) (e : NsEntry)
    (he : entryAt (splitDots name) ns = some e)
    (methodName : String) (hm : alHas methodName e.members = true)
    (ty : Option String) (pid : Nat) (eligible : Bool) (synth : NsEntry) :
    resolveImplicitTypeDefs (some name) ty pid methodName eligible synth ns = ns := by
  by_cases hn : name = ""
  · subst hn
    simp [resolveImplicitTypeDefs, findNamespacesTag]
  · have h1 := findNamespacesTag_some name hn ty pid (fun _ x => x) ns
    have h2 := findNsSet_id_of_entryAt ⟨name, ty, pid⟩ (splitDots name) ns e he
    simp [resolveImplicitTypeDefs, h1, h2, hm]

/-- Witness for C4 at concrete inputs: the class namespace NS already has
a member named m, so the synthetic registration leaves the tree
unchanged even though the method is eligible. -/
theorem resolveImplicitTypeDefs_first_registration_wins_witness :
    resolveImplicitTypeDefs (some "NS") (some "namespace") 1 "m" true
        (NsEntry.mk none (some 99) (some 99) [])
        [("NS", NsEntry.mk (some "namespace") (some 0) none
          [("m", NsEntry.mk none (some 9) (some 9) [])])]
      = [("NS", NsEntry.mk (some "namespace") (some 0) none
          [("m", NsEntry.mk none (some 9) (some 9) [])])] :=
  resolveImplicitTypeDefs_first_registration_wins
    [("NS", NsEntry.mk (some "namespace") (some 0) none
      [("m", NsEntry.mk none (some 9) (some 9) [])])]
    "NS"
    (NsEntry.mk (some "namespace") (some 0) none
      [("m", NsEntry.mk none (some 9) (some 9) [])])
    rfl "m" rfl (some "namespace") 1 true (NsEntry.mk none (some 99) (some 99) [])

/-! Claim C8: resolving the same dotted path twice is idempotent. -/

/-- C8: calling findNamespaces (string mode, no entry-changing callback)
twice with the same dotted name yields the same entry both times and the
second call leaves the tree exactly as the first call left it: every
intermediate entry is created at most once and the second call only
traverses. -/
theorem findNamespaces_idempotent (name : String) (t : NsTree) :
    findNamespaces name (findNamespaces name t).fst = findNamespaces name t := by
  by_cases hn : name = ""
  · subst hn
    rfl
  · simp [findNamespaces, hn, findNsGet_idem]

/-! Claim C9: an empty or underivable namespace name leaves the tree
untouched and yields no entry. -/

/-- C9: when findNamespaces is given an empty-string name, or a node
carrying no tag matched by the tag test (so no comment to derive a name
from), it returns undefined (none) and leaves the target tree completely
unchanged, in both its string-argument and node-argument modes. -/
theorem findNamespaces_empty_name_unchanged (t : NsTree) (ty : Option String)
    (n : Nat) (f : TagInfo → NsEntry → NsEntry) :
    findNamespacesTag none ty n f t = (t, none) ∧
    findNamespacesTag (some "") ty n f t = (t, none) ∧
    findNamespaces "" t = (t, none) :=
  ⟨rfl, rfl, rfl⟩

/-! Claim C10: default-export registration in the class-declaration
visitor. -/

/-- C10: inside the class-declaration visitor, a class whose name equals
the configured defaultExport is registered under the defaultExport key as
an alias with an empty member map, but only when that key is still absent;
an existing registration is never displaced, and classes with a different
name register nothing. -/
theorem registerDefaultExport_only_when_absent (t : NsTree) (d c : String)
    (n : Nat) :
    (alHas d t = false →
      registerDefaultExport d d n t
        = alSet d (NsEntry.mk (some "alias") (some n) none []) t) ∧
    (alHas d t = false →
      alGet d (registerDefaultExport d d n t)
        = some (NsEntry.mk (some "alias") (some n) none [])) ∧
    (alHas d t = true → registerDefaultExport c d n t = t) ∧
    (c ≠ d → registerDefaultExport c d n t = t) := by
  refine ⟨fun h => ?_, fun h => ?_, fun h => ?_, fun h => ?_⟩
  · simp [registerDefaultExport, h]
  · simp [registerDefaultExport, h, alGet_alSet_self]
  · simp [registerDefaultExport, h]
  · simp [registerDefaultExport, h]

/-- Witness for C10 at concrete inputs: the key is absent in the empty
tree, and the registered entry is the alias with an empty member map. -/
theorem registerDefaultExport_only_when_absent_witness :
    alHas "M" ([] : NsTree) = false ∧
    alGet "M" (registerDefaultExport "M" "M" 7 [])
      = some (NsEntry.mk (some "alias") (some 7) none []) :=
  ⟨rfl, (registerDefaultExport_only_when_absent [] "M" "Other" 7).2.1 rfl⟩

/-! Claims C2 and C3: the type resolver's async wrap and error-sentinel
fallback. -/

/-- C3: resolving any node (including the absent node) with isAsync true
yields exactly a Promise type reference whose single type argument is the
resolution of the same node with isAsync false; the wrapper is applied
exactly once, because the inner resolution runs without the flag. -/
theorem resolveActualType_async_wrap (c : Checker) (n? : Option TNode) :
    resolveActualType c n? true
      = TNode.typeRef "Promise" [resolveActualType c n? false] := by
  simp [resolveActualType]

/-- C2: for a node that lands in the default branch and whose
checker-guessed type carries the error intrinsic sentinel,
resolveActualType falls back to resolving the node's own declared type
expression (typeExpression ?? type) instead of returning the checker's
guess; in particular, when that declared expression is a type reference
named Foo, resolution yields that named reference verbatim. -/
theorem resolveActualType_error_fallback (c : Checker) (i : Nat)
    (te ty : Option TNode)
    (h : c.intrinsicOf (.other i te ty) = some "error") :
    resolveActualType c (some (.other i te ty)) false
        = resolveActualType c (firstSome te ty) false ∧
    ∀ (nm : String) (args : List TNode),
      firstSome te ty = some (.typeRef nm args) →
      resolveActualType c (some (.other i te ty)) false
        = TNode.typeRef nm args := by
  have hmain : resolveActualType c (some (.other i te ty)) false
      = resolveActualType c (firstSome te ty) false := by
    cases te with
    | some m => simp [resolveActualType, resolveActualTypeNode, h, firstSome]
    | none =>
        cases ty with
        | some m => simp [resolveActualType, resolveActualTypeNode, h, firstSome]
        | none => simp [resolveActualType, resolveActualTypeNode, h, firstSome]
  refine ⟨hmain, fun nm args hf => ?_⟩
  rw [hmain, hf]
  simp [resolveActualType, resolveActualTypeNode]

/-- Witness for C2 at concrete inputs: a checker that always reports the
error sentinel, and a default-branch node whose declared type expression
is the type reference Foo; resolution yields the named reference Foo. -/
theorem resolveActualType_error_fallback_witness :
    resolveActualType ⟨fun _ => some "error", fun n => n⟩
        (some (.other 0 (some (.typeRef "Foo" [])) none)) false
      = TNode.typeRef "Foo" [] :=
  (resolveActualType_error_fallback ⟨fun _ => some "error", fun n => n⟩ 0
    (some (.typeRef "Foo" [])) none rfl).2 "Foo" [] rfl

/-! Claim C6: members tagged internal or inheritdoc never survive
filterMembers. -/

/-- C6: for every kind argument and every member list, a member carrying
an internal tag or an inheritdoc tag (matched case-insensitively, as the
tag predicates lower-case the tag name) is never present in the output of
filterMembers. -/
theorem filterMembers_excludes_internal_inheritdoc (kind : String)
    (members : List MemberNode) (m : MemberNode)
    (hm : (m.tags.any fun tg =>
        isJSDocInternalTag tg || isJSDocInheritDocTag tg) = true) :
    m ∉ filterMembers kind members := by
  intro hmem
  rcases List.mem_filter.mp hmem with ⟨-, hp⟩
  simp only [hm] at hp
  simp at hp

/-- Witness for C6 at concrete inputs: a public, otherwise keepable member
tagged internal is dropped for the class kind. -/
theorem filterMembers_excludes_internal_inheritdoc_witness :
    ((MemberNode.mk (some (MName.mk "x" false)) none false false
        ["internal"]).tags.any fun tg =>
          isJSDocInternalTag tg || isJSDocInheritDocTag tg) = true ∧
    MemberNode.mk (some (MName.mk "x" false)) none false false ["internal"] ∉
      filterMembers "class"
        [MemberNode.mk (some (MName.mk "x" false)) none false false ["internal"]] :=
  ⟨rfl, filterMembers_excludes_internal_inheritdoc "class"
    [MemberNode.mk (some (MName.mk "x" false)) none false false ["internal"]]
    (MemberNode.mk (some (MName.mk "x" false)) none false false ["internal"]) rfl⟩

/-! Claim C7: enumeration tags resolve to unions of literal types, one
member per value, never unwrapped. -/

/-- C7: generateEnumType always returns a union type node: with an
explicit union-of-literals annotation the members are the annotated
literals in order (one per value); without one, the members are read off
the property assignment's initializer elements (one literal member per
value), including the three-value and single-value instances, and a
single value still yields a one-member union, never a bare literal. -/
theorem generateEnumType_literal_union :
    (∀ (lits : List LitVal) (source : EnumSource),
      generateEnumType (some lits) source = ETy.unionE (lits.map ETy.lit)) ∧
    (∀ es : List LitVal,
      generateEnumType none (.propAssign es) = ETy.unionE (es.map ETy.lit)) ∧
    (∀ es : List LitVal,
      generateEnumType none (.varDecls [es]) = ETy.unionE (es.map ETy.lit)) ∧
    (generateEnumType none (.propAssign [.num "1", .num "2", .num "3"])
      = ETy.unionE [.lit (.num "1"), .lit (.num "2"), .lit (.num "3")]) ∧
    (∀ v : LitVal,
      generateEnumType none (.propAssign [v]) = ETy.unionE [.lit v]) ∧
    (∀ (ann : Option (List LitVal)) (source : EnumSource),
      ∃ ms : List ETy, generateEnumType ann source = ETy.unionE ms) := by
  refine ⟨fun lits source => rfl, fun es => ?_, fun es => ?_, ?_, fun v => ?_,
    fun ann source => ⟨_, rfl⟩⟩
  · simp [generateEnumType]
  · simp [generateEnumType]
  · rfl
  · simp [generateEnumType]

/-! Claim C5: heritage de-duplication through a base-name-keyed Map in
which documented types are inserted after explicit ones. -/

theorem alGet_append_left {κ α : Type} [DecidableEq κ] {k : κ}
    {l1 : List (κ × α)} (l2 : List (κ × α)) (h : ∀ p ∈ l1, p.fst ≠ k) :
    alGet k (l1 ++ l2) = alGet k l2 := by
  induction l1 with
  | nil => rfl
  | cons p rest ih =>
      obtain ⟨k2, v2⟩ := p
      have hk : k2 ≠ k := h (k2, v2) (by simp)
      simp only [List.cons_append, alGet, hk, if_false]
      exact ih (fun q hq => h q (List.mem_cons_of_mem _ hq))

theorem alGet_foldl_alSet {κ α : Type} [DecidableEq κ] (ps : List (κ × α))
    (k : κ) :
    alGet k (ps.foldl (fun m kv => alSet kv.fst kv.snd m) [])
      = alGet k ps.reverse := by
  induction ps using List.reverseRecOn with
  | nil => rfl
  | append_singleton qs q ih =>
      obtain ⟨k2, v2⟩ := q
      rw [List.foldl_append, List.reverse_append]
      simp only [List.foldl_cons, List.foldl_nil, List.reverse_cons,
        List.reverse_nil, List.nil_append, List.singleton_append]
      by_cases h : k2 = k
      · subst h
        simp [alGet_alSet_self, alGet]
      · rw [alGet_alSet_ne (fun hx => h hx)]
        simp [alGet, h, ih]

theorem mem_alSet {κ α : Type} [DecidableEq κ] {p : κ × α} {k : κ} {v : α} :
    ∀ {l : List (κ × α)}, p ∈ alSet k v l → p = (k, v) ∨ p ∈ l := by
  intro l
  induction l with
  | nil =>
      intro h
      simp only [alSet] at h
      exact Or.inl (List.mem_singleton.mp h)
  | cons q rest ih =>
      obtain ⟨k2, v2⟩ := q
      intro h
      by_cases hk : k2 = k
      · simp only [alSet, hk, if_true] at h
        rcases List.mem_cons.mp h with h2 | h2
        · exact Or.inl h2
        · exact Or.inr (List.mem_cons_of_mem _ h2)
      · simp only [alSet, hk, if_false] at h
        rcases List.mem_cons.mp h with h2 | h2
        · exact Or.inr (h2 ▸ List.mem_cons_self _ _)
        · rcases ih h2 with h3 | h3
          · exact Or.inl h3
          · exact Or.inr (List.mem_cons_of_mem _ h3)

theorem mem_foldl_alSet {κ α : Type} [DecidableEq κ] {p : κ × α} :
    ∀ ps : List (κ × α),
      p ∈ ps.foldl (fun m kv => alSet kv.fst kv.snd m) [] → p ∈ ps := by
  intro ps
  induction ps using List.reverseRecOn with
  | nil => intro h; simp at h
  | append_singleton qs q ih =>
      intro h
      rw [List.foldl_append] at h
      simp only [List.foldl_cons, List.foldl_nil] at h
      rcases mem_alSet h with h2 | h2
      · apply List.mem_append_right
        rw [h2]
        simp
      · exact List.mem_append_left _ (ih h2)

theorem mem_keys_alSet {κ α : Type} [DecidableEq κ] {k2 k : κ} {v : α} :
    ∀ {l : List (κ × α)},
      k2 ∈ (alSet k v l).map Prod.fst ↔ k2 = k ∨ k2 ∈ l.map Prod.fst := by
  intro l
  induction l with
  | nil => simp [alSet]
  | cons q rest ih =>
      obtain ⟨k3, v3⟩ := q
      by_cases hk : k3 = k
      · subst hk
        simp [alSet]
      · simp only [alSet, hk, if_false]
        simp only [List.map_cons, List.mem_cons, ih]
        tauto

theorem keys_nodup_alSet {κ α : Type} [DecidableEq κ] (k : κ) (v : α) :
    ∀ {l : List (κ × α)}, (l.map Prod.fst).Nodup →
      ((alSet k v l).map Prod.fst).Nodup := by
  intro l
  induction l with
  | nil => intro _; simp [alSet]
  | cons q rest ih =>
      obtain ⟨k2, v2⟩ := q
      intro h
      rw [List.map_cons] at h
      rcases List.nodup_cons.mp h with ⟨hnotin, hrest⟩
      by_cases hk : k2 = k
      · have halSet : alSet k v ((k2, v2) :: rest) = (k, v) :: rest := by
          simp [alSet, hk]
        rw [halSet, List.map_cons]
        exact List.nodup_cons.mpr ⟨hk ▸ hnotin, hrest⟩
      · have halSet : alSet k v ((k2, v2) :: rest)
            = (k2, v2) :: alSet k v rest := by
          simp [alSet, hk]
        rw [halSet, List.map_cons]
        refine List.nodup_cons.mpr ⟨?_, ih hrest⟩
        rw [mem_keys_alSet]
        rintro (h2 | h2)
        · exact hk h2
        · exact hnotin h2

theorem keys_nodup_foldl_alSet {κ α : Type} [DecidableEq κ]
    (ps : List (κ × α)) :
    ((ps.foldl (fun m kv => alSet kv.fst kv.snd m) []).map Prod.fst).Nodup := by
  induction ps using List.reverseRecOn with
  | nil => simp
  | append_singleton qs q ih =>
      rw [List.foldl_append]
      simp only [List.foldl_cons, List.foldl_nil]
      exact keys_nodup_alSet _ _ ih

theorem filter_map_snd_alGet {κ α : Type} [DecidableEq κ] (f : α → κ) :
    ∀ M : List (κ × α), (M.map Prod.fst).Nodup →
      (∀ p ∈ M, p.fst = f p.snd) → ∀ k : κ,
        (M.map Prod.snd).filter (fun v => decide (f v = k))
          = (alGet k M).toList := by
  intro M
  induction M with
  | nil => intro _ _ k; rfl
  | cons p rest ih =>
      obtain ⟨k2, v2⟩ := p
      intro hnd hcpl k
      have hk2 : k2 = f v2 := hcpl (k2, v2) (by simp)
      rw [List.map_cons] at hnd
      rcases List.nodup_cons.mp hnd with ⟨hnotin, hrest⟩
      have hrcpl : ∀ p ∈ rest, p.fst = f p.snd :=
        fun q hq => hcpl q (List.mem_cons_of_mem _ hq)
      by_cases h : k2 = k
      · subst h
        have hval : decide (f v2 = k2) = true := by simp [← hk2]
        have hrfilter : (rest.map Prod.snd).filter
            (fun v => decide (f v = k2)) = [] := by
          apply List.filter_eq_nil_iff.mpr
          intro v hv
          rcases List.mem_map.mp hv with ⟨q, hq, hqe⟩
          have hqk : q.fst = f q.snd := hrcpl q hq
          have hmemk : f v ∈ rest.map Prod.fst := by
            rw [← hqe, ← hqk]
            exact List.mem_map_of_mem _ hq
          simp only [decide_eq_true_eq]
          intro hfv
          rw [hfv] at hmemk
          exact hnotin hmemk
        simp [alGet, List.filter_cons, hval, hrfilter]
      · have hval : decide (f v2 = k) = false := by
          simp only [decide_eq_false_iff_not]
          rw [← hk2]
          exact fun hx => h hx
        simp [alGet, List.filter_cons, hval, h, ih hrest hrcpl k]

/-- C5: for a class with both an explicit extends-clause type (kept by the
constructability filter) and a documented extends tag naming the same
base, the generated extends clause contains exactly one entry for that
base name, and it is the documented one (the last documented entry for
that base), because documented types are inserted after explicit ones into
a base-name-keyed Map. -/
theorem generateClassHeritageClauses_documented_wins
    (constructable : Nat → Bool) (expl d1 d2 : List HType) (b : String)
    (dt : HType) (hbase : dt.baseName = some b)
    (hlast : ∀ x ∈ d2, x.baseName ≠ some b)
    (_hexpl : ∃ et ∈ expl, et.baseName = some b ∧ constructable et.hid = true) :
    (generateClassHeritageClauses constructable false expl
        (d1 ++ dt :: d2)).filter (fun h => decide (h.baseName = some b))
      = [dt] := by
  clear _hexpl
  unfold generateClassHeritageClauses
  set ps := (((expl.filter fun ht => xor (constructable ht.hid) false)
      ++ (d1 ++ dt :: d2)).map (fun ht => (ht.baseName, ht))) with hps
  have hM := keys_nodup_foldl_alSet ps
  have hcpl : ∀ p ∈ ps.foldl (fun m kv => alSet kv.fst kv.snd m) [],
      p.fst = HType.baseName p.snd := by
    intro p hp
    have hmem := mem_foldl_alSet ps hp
    rw [hps] at hmem
    rcases List.mem_map.mp hmem with ⟨ht, _, hhe⟩
    rw [← hhe]
  rw [filter_map_snd_alGet HType.baseName _ hM hcpl (some b)]
  rw [alGet_foldl_alSet, hps]
  simp only [List.map_append, List.map_cons, List.reverse_append,
    List.reverse_cons, List.append_assoc, List.singleton_append]
  rw [alGet_append_left]
  · simp [alGet, hbase]
  · intro p hp
    rw [List.mem_reverse] at hp
    rcases List.mem_map.mp hp with ⟨x, hx, hpe⟩
    rw [← hpe]
    exact hlast x hx

/-- Witness for C5 at concrete inputs: an explicit constructable Base and
a documented Base occupy the same key; exactly the documented entry
survives. -/
theorem generateClassHeritageClauses_documented_wins_witness :
    (generateClassHeritageClauses (fun _ => true) false
        [HType.mk (some "Base") 1] ([] ++ HType.mk (some "Base") 2 :: [])).filter
      (fun h => decide (h.baseName = some "Base")) = [HType.mk (some "Base") 2] :=
  generateClassHeritageClauses_documented_wins (fun _ => true)
    [HType.mk (some "Base") 1] [] [] "Base" (HType.mk (some "Base") 2) rfl
    (fun x hx => absurd hx (List.not_mem_nil x))
    ⟨HType.mk (some "Base") 1, by simp⟩

end OstensiblyTyped
